import Mathlib

/-!
Verification of the vector-store core of the code-rag-server repository.

The embedded code is `src/code_rag_server/vector_store.py` (class
`InMemoryVectorStore`) and the input validation of
`src/code_rag_server/embeddings.py` (class `EmbeddingService`).

Modelling conventions:
* Python floats are modelled as real numbers (`ℝ`).  real division in Lean
  returns `0` when the divisor is `0`; IEEE division instead produces a
  non-finite value (NaN/inf).  Where the distinction matters (normalising a
  zero-norm vector) we additionally use `divF`, which returns `none` for a
  zero divisor, so `none` stands for a non-finite float.
* Python lists are Lean lists; the two mutable fields of the store become a
  structure, and mutation becomes functional update.
* `numpy.argsort` sorts indices by value ascending; ties are in an
  implementation-defined order (the spec leaves the tie-break unspecified).
  We model it with insertion sort on the index list; every theorem below
  states only tie-independent facts.
* The snapshot file is modelled as an `Option` pair (absent / present
  contents); `pickle` round-trips values exactly.
-/

namespace CodeRag

/-- An embedding vector: a list of floats (modelled as reals). -/
abbrev Vec := List ℝ

/-- Sum of squares of the components: `norm(v)**2` before the square root. -/
noncomputable def normSq (v : Vec) : ℝ :=
  (v.map (fun x => x * x)).sum

/-- Euclidean (L2) norm, `numpy.linalg.norm(v)`. -/
noncomputable def norm2 (v : Vec) : ℝ :=
  Real.sqrt (normSq v)

/-- Componentwise division by the norm: `embedding / norm(embedding)`
(real-number semantics; division by a zero norm gives `0` in Lean). -/
noncomputable def normalize (v : Vec) : Vec :=
  v.map (fun x => x / norm2 v)

/-- IEEE-flavoured division of one component by the norm: dividing by a zero
norm yields a non-finite float (`0/0` is NaN, `x/0` is ±inf), modelled as
`none`. -/
noncomputable def divF (x n : ℝ) : Option ℝ :=
  if n = 0 then none else some (x / n)

/-- What `embedding / norm(embedding)` produces under IEEE semantics:
for a zero-norm input every component is non-finite (`none`). -/
noncomputable def normalizeF (v : Vec) : List (Option ℝ) :=
  v.map (fun x => divF x (norm2 v))

/-- Dot product of two vectors (`numpy.dot` on one row). -/
noncomputable def dot (a b : Vec) : ℝ :=
  (List.zipWith (fun x y => x * y) a b).sum

/-- The in-memory state of `InMemoryVectorStore`: the two parallel lists
`self.embeddings` and `self.metadata`.  The metadata record type is an
opaque parameter `μ` (the code stores dicts and never inspects them in the
store). -/
structure Store (μ : Type) where
  embeddings : List Vec
  metadata : List μ

/-- A freshly constructed store with no snapshot to hydrate from:
both sequences empty. -/
def Store.empty {μ : Type} : Store μ := ⟨[], []⟩

/-- `InMemoryVectorStore.add`, the in-memory part: normalise the vector and
append it and the metadata to the two lists.  The code performs no
validation whatsoever before dividing by the norm. -/
noncomputable def Store.add {μ : Type} (s : Store μ) (v : Vec) (m : μ) : Store μ :=
  ⟨s.embeddings ++ [normalize v], s.metadata ++ [m]⟩

/-- Repeated insertion: fold a list of (vector, metadata) pairs into the
store with `add`, in order. -/
noncomputable def Store.addAll {μ : Type} (s : Store μ) (l : List (Vec × μ)) :
    Store μ :=
  l.foldl (fun t p => t.add p.1 p.2) s

/-- `InMemoryVectorStore.size`: the number of stored vectors. -/
def Store.size {μ : Type} (s : Store μ) : Nat :=
  s.embeddings.length

/-- The value `save` serialises: the ordered pair
`(self.embeddings, self.metadata)`. -/
def Store.snapshot {μ : Type} (s : Store μ) : List Vec × List μ :=
  (s.embeddings, s.metadata)

/-- Constructing `InMemoryVectorStore(pickle_path)` where the file either is
absent (`none`: start empty) or holds a serialised snapshot pair (`some`:
hydrate both sequences from it). -/
def openStore {μ : Type} (file : Option (List Vec × List μ)) : Store μ :=
  match file with
  | none => ⟨[], []⟩
  | some (e, m) => ⟨e, m⟩

/-- The four store operations whose interleavings the parallel-sequence
invariant quantifies over. -/
inductive Op (μ : Type) where
  | add (v : Vec) (m : μ)
  | save
  | load
  | clear

/-- A store together with its optional snapshot file and whether a
`pickle_path` is configured. -/
structure World (μ : Type) where
  store : Store μ
  file : Option (List Vec × List μ)
  hasPath : Bool

/-- One operation on the store, with its file side effects exactly as in the
code: `add` appends and then auto-saves when a path is configured; `save`
overwrites the file with the current snapshot; `load` replaces both
in-memory lists with the file contents when the file exists; `clear` empties
both lists and deletes the file. -/
noncomputable def step {μ : Type} (w : World μ) : Op μ → World μ
  | .add v m =>
    let s := w.store.add v m
    if w.hasPath then ⟨s, some s.snapshot, w.hasPath⟩ else ⟨s, w.file, w.hasPath⟩
  | .save =>
    if w.hasPath then ⟨w.store, some w.store.snapshot, w.hasPath⟩ else w
  | .load =>
    if w.hasPath then
      match w.file with
      | some (e, m) => ⟨⟨e, m⟩, w.file, w.hasPath⟩
      | none => w
    else w
  | .clear => ⟨⟨[], []⟩, if w.hasPath then none else w.file, w.hasPath⟩

/-- Run a sequence of operations. -/
noncomputable def run {μ : Type} (w : World μ) (ops : List (Op μ)) : World μ :=
  ops.foldl step w

/-- The initial world: an empty store, no snapshot file yet. -/
def World.init (μ : Type) (hasPath : Bool) : World μ :=
  ⟨Store.empty, none, hasPath⟩

/-- The logical entry log of an operation sequence: which (raw vector,
metadata) pairs the store currently holds, in insertion order, and which
pair list the snapshot file currently holds.  This is computed from the
operations alone and mirrors `step` exactly, so it is the canonical
"entries inserted at each position" reading of a run. -/
structure EntryLog (μ : Type) where
  entries : List (Vec × μ)
  fileEntries : Option (List (Vec × μ))

/-- One operation on the logical entry log, mirroring `step`: `add`
appends the pair (and records the file contents when a path is
configured), `save` records the current pairs, `load` restores the
recorded pairs, `clear` empties both. -/
def logStep {μ : Type} (hasPath : Bool) (g : EntryLog μ) : Op μ → EntryLog μ
  | .add v m =>
    let es := g.entries ++ [(v, m)]
    if hasPath then ⟨es, some es⟩ else ⟨es, g.fileEntries⟩
  | .save => if hasPath then ⟨g.entries, some g.entries⟩ else g
  | .load =>
    if hasPath then
      match g.fileEntries with
      | some l => ⟨l, g.fileEntries⟩
      | none => g
    else g
  | .clear => ⟨[], if hasPath then none else g.fileEntries⟩

/-- Run a sequence of operations on the logical entry log. -/
def runLog {μ : Type} (hasPath : Bool) (g : EntryLog μ) (ops : List (Op μ)) :
    EntryLog μ :=
  ops.foldl (logStep hasPath) g

/-- The world is the rendering of one logical entry log: position `i` of
the embedding sequence holds the normalisation of the vector of the pair
at position `i` of the log, position `i` of the metadata sequence holds
the metadata of that same pair, and the snapshot file (when present) is
the same rendering of the pair list recorded for it.  This is the
positional-correspondence invariant: both in-memory sequences are read in
lockstep off a single pair list. -/
def LogAbs {μ : Type} (hasPath : Bool) (w : World μ) (g : EntryLog μ) : Prop :=
  w.hasPath = hasPath ∧
  w.store.embeddings = g.entries.map (fun p => normalize p.1) ∧
  w.store.metadata = g.entries.map (fun p => p.2) ∧
  w.file = Option.map
    (fun l => (l.map (fun p => normalize p.1), l.map (fun p => p.2)))
    g.fileEntries

/-- Contents of the snapshot file as `load` sees it: the file may fail to
deserialise at all (`corrupt`, `pickle.load` raises), deserialise to
something that is not a pair (`notPair`, the tuple unpacking
`self.embeddings, self.metadata = pickle.load(f)` raises), or deserialise
to a pair of two sequences of arbitrary lengths. -/
inductive FileData (μ : Type) where
  | corrupt
  | notPair
  | pair (e : List Vec) (m : List μ)

/-- The error surfaced when loading fails (`StorageCorruption` in the spec). -/
inductive LoadError where
  | storageCorruption
deriving DecidableEq

/-- `InMemoryVectorStore.load` on an existing file: `pickle.load` and the
tuple unpacking raise (the exception propagates to the caller, there is no
handler), and any pair of two sequences — of equal length or not — is
accepted as the new store state. -/
def loadFile {μ : Type} : FileData μ → Except LoadError (Store μ)
  | .corrupt => .error .storageCorruption
  | .notPair => .error .storageCorruption
  | .pair e m => .ok ⟨e, m⟩

/-- Python list slice `l[i:]` with a possibly negative start index:
a negative start counts from the end (clamped at 0), a nonnegative start
drops that many elements (clamped at the length). -/
def pySliceFrom {α : Type} (l : List α) (i : Int) : List α :=
  if i < 0 then l.drop (l.length + i).toNat else l.drop i.toNat

/-- The cosine similarities `np.dot(embeddings_array, query)`: one dot
product per stored row, in storage order.  The argument `q` is the already
normalised query. -/
noncomputable def similarities {μ : Type} (s : Store μ) (q : Vec) : List ℝ :=
  s.embeddings.map (fun e => dot e q)

/-- `np.argsort(sims)`: the indices `0 .. sims.length - 1` sorted so that
the similarity values are ascending.  numpy leaves the order of equal
values implementation-defined; we use insertion sort, and prove only
tie-independent facts. -/
noncomputable def argsort (sims : List ℝ) : List ℕ :=
  @List.insertionSort ℕ (fun i j => sims.getD i 0 ≤ sims.getD j 0)
    (fun a b => Real.decidableLE (sims.getD a 0) (sims.getD b 0)) (List.range sims.length)

/-- `InMemoryVectorStore.search`: empty store short-circuits to `[]`;
otherwise normalise the query, compute all similarities, select
`argsort(similarities)[-top_k:][::-1]` and return the (metadata, score)
pairs for those indices.  `top_k` is a Python `int`, hence `Int`. -/
noncomputable def Store.search {μ : Type} [Inhabited μ]
    (s : Store μ) (q : Vec) (top_k : Int) : List (μ × ℝ) :=
  if s.embeddings.isEmpty then []
  else
    let sims := similarities s (normalize q)
    let topIndices := (pySliceFrom (argsort sims) (-top_k)).reverse
    topIndices.map (fun i => (s.metadata.getD i default, sims.getD i 0))

/-- A Python string, modelled as its character sequence. -/
abbrev PyStr := List Char

/-- Python `not t.strip()`: `strip()` removes leading and trailing
whitespace, so the result is falsy exactly when every character of the
string is whitespace (including the empty string). -/
def isBlank (s : PyStr) : Bool :=
  s.all (fun c => c.isWhitespace)

/-- The argument of `EmbeddingService.get_embedding`: a single string or a
list of strings (the code branches on `isinstance`). -/
inductive EmbedInput where
  | str (s : PyStr)
  | list (l : List PyStr)

/-- The input validation of `EmbeddingService.get_embedding`: returns `true`
exactly when the code raises `ValueError("Empty input")` — a blank single
string, an empty list, or a list containing a blank string. -/
def embedInputInvalid : EmbedInput → Bool
  | .str s => isBlank s
  | .list l => l.isEmpty || l.any isBlank

/-- Python `range(0, n, bs)`: the start offsets of the batches. -/
def pyRange (n bs : Nat) : List Nat :=
  List.range' 0 ((n + bs - 1) / bs) bs

/-- Failure of `EmbeddingService.get_batch_embeddings`: the code raises
`ValueError("Empty input")` up front on an empty list, and otherwise
propagates the first failing `get_embedding` call on a batch slice
`texts[i : i + batch_size]`. -/
def batchEmbedInvalid (texts : List PyStr) (bs : Nat) : Bool :=
  texts.isEmpty ||
    (pyRange texts.length bs).any
      (fun i => embedInputInvalid (.list ((texts.drop i).take bs)))

/-- Ascending sort of a list of similarity values (helper for relating the
index sort to the value sort). -/
noncomputable def sortAsc (l : List ℝ) : List ℝ :=
  @List.insertionSort ℝ (fun a b => a ≤ b) (fun a b => Real.decidableLE a b) l

/-- Descending sort of a list of similarity values: the reference order for
the scores `search` returns (its `take top_k` prefix is the list of the
`top_k` largest values, descending). -/
noncomputable def sortDesc (l : List ℝ) : List ℝ :=
  @List.insertionSort ℝ (fun a b => b ≤ a) (fun a b => Real.decidableLE b a) l

/-- The ranking example of the spec: pre-normalisation vectors `[1,0,0] → A`,
`[0,1,0] → B`, `[0.9,0.1,0] → C`, added in that order. -/
noncomputable def exampleStore : Store String :=
  ((Store.empty.add [1, 0, 0] "A").add [0, 1, 0] "B").add [0.9, 0.1, 0] "C"

/-- The failure condition exactly as claim C9 words it: an empty string, an
empty sequence, or a sequence containing a blank string.  (Spec-side
predicate, stated from the words of the claim for comparison with the
validation in the code, namely `embedInputInvalid`.) -/
def claimedEmptyInput : EmbedInput → Prop
  | .str s => s = []
  | .list l => l = [] ∨ ∃ t ∈ l, isBlank t = true

/-- The failure condition with the minimal correction the counterexample
forces: for a single string, "empty" becomes "blank (empty or
whitespace-only)". -/
def amendedEmptyInput : EmbedInput → Prop
  | .str s => isBlank s = true
  | .list l => l = [] ∨ ∃ t ∈ l, isBlank t = true

/-! ### Theorems -/

/-- C1 counterexample: `add` on the zero vector `[0,0,0]` does not fail —
the entry is appended (the store reaches size 1 and holds the metadata) —
and the IEEE normalisation of the zero vector is all-NaN, so NaN values
are appended to the embedding sequence, contrary to the claim. -/
theorem c1_zero_vector_counterexample :
    ((Store.empty : Store String).add [0, 0, 0] "m").size = 1 ∧
    ((Store.empty : Store String).add [0, 0, 0] "m").metadata = ["m"] ∧
    normalizeF [0, 0, 0] = [none, none, none] := by
  refine ⟨rfl, rfl, ?_⟩
  norm_num [normalizeF, divF, norm2, normSq]

/-- C1 (amended): `add` performs no validation at all.  For a zero-norm
input it still appends: the store grows by one entry and the metadata is
appended, and under IEEE semantics every component of the normalised
vector is non-finite (NaN). -/
theorem c1_add_zero_norm_amended {μ : Type} (s : Store μ) (v : Vec) (m : μ)
    (h : normSq v = 0) :
    (s.add v m).size = s.size + 1 ∧
    (s.add v m).metadata = s.metadata ++ [m] ∧
    normalizeF v = v.map (fun _ => none) := by
  refine ⟨by simp [Store.add, Store.size], rfl, ?_⟩
  simp [normalizeF, divF, norm2, h, Real.sqrt_zero]

/-- C1 witness: the amended statement instantiated at the zero vector
`[0,0,0]` over an empty store. -/
theorem c1_add_zero_norm_amended_witness :
    normSq ([0, 0, 0] : Vec) = 0 ∧
    ((Store.empty : Store String).add [0, 0, 0] "m").size = 1 ∧
    normalizeF [0, 0, 0] = ([0, 0, 0] : Vec).map (fun _ => none) := by
  have h : normSq ([0, 0, 0] : Vec) = 0 := by norm_num [normSq]
  have h2 := c1_add_zero_norm_amended (Store.empty : Store String) [0, 0, 0] "m" h
  exact ⟨h, h2.1, h2.2.2⟩

/-- C3: round-trip persistence.  With a persistence location configured,
after `add v m` (which auto-saves) and an explicit `save`, the snapshot
file holds the updated pair, and a store constructed from that file has
the original metadata sequence extended by `m` and the original embedding
sequence extended by `normalize v`. -/
theorem c3_roundtrip {μ : Type} (s : Store μ) (f : Option (List Vec × List μ))
    (v : Vec) (m : μ) :
    (run ⟨s, f, true⟩ [.add v m, .save]).file = some ((s.add v m).snapshot) ∧
    (openStore ((run ⟨s, f, true⟩ [.add v m, .save]).file)).metadata
      = s.metadata ++ [m] ∧
    (openStore ((run ⟨s, f, true⟩ [.add v m, .save]).file)).embeddings
      = s.embeddings ++ [normalize v] := by
  refine ⟨rfl, rfl, rfl⟩

/-- Preservation of the log-abstraction invariant by one operation: the
concrete `step` and the logical `logStep` stay in lockstep. -/
theorem logAbs_step {μ : Type} {hasPath : Bool} {w : World μ} {g : EntryLog μ}
    (h : LogAbs hasPath w g) (op : Op μ) :
    LogAbs hasPath (step w op) (logStep hasPath g op) := by
  obtain ⟨hp, he, hm, hf⟩ := h
  cases op with
  | add v m =>
    cases hpb : hasPath with
    | true =>
      refine ⟨?_, ?_, ?_, ?_⟩ <;>
        simp [step, logStep, hp, hpb, Store.add, Store.snapshot, he, hm]
    | false =>
      refine ⟨?_, ?_, ?_, ?_⟩ <;>
        simp [step, logStep, hp, hpb, Store.add, he, hm, hf]
  | save =>
    cases hpb : hasPath with
    | true =>
      refine ⟨?_, ?_, ?_, ?_⟩ <;>
        simp [step, logStep, hp, hpb, Store.snapshot, he, hm]
    | false =>
      refine ⟨?_, ?_, ?_, ?_⟩ <;> simp [step, logStep, hp, hpb, he, hm, hf]
  | load =>
    cases hpb : hasPath with
    | true =>
      cases hfe : g.fileEntries with
      | some l =>
        rw [hfe] at hf
        refine ⟨?_, ?_, ?_, ?_⟩ <;> simp [step, logStep, hp, hpb, hf, hfe]
      | none =>
        rw [hfe] at hf
        refine ⟨?_, ?_, ?_, ?_⟩ <;>
          simp [step, logStep, hp, hpb, hf, hfe, he, hm]
    | false =>
      refine ⟨?_, ?_, ?_, ?_⟩ <;> simp [step, logStep, hp, hpb, he, hm, hf]
  | clear =>
    cases hpb : hasPath with
    | true => refine ⟨?_, ?_, ?_, ?_⟩ <;> simp [step, logStep, hp, hpb]
    | false => refine ⟨?_, ?_, ?_, ?_⟩ <;> simp [step, logStep, hp, hpb, hf]

/-- Preservation of the log-abstraction invariant by any run. -/
theorem logAbs_run {μ : Type} {hasPath : Bool} {w : World μ} {g : EntryLog μ}
    (h : LogAbs hasPath w g) (ops : List (Op μ)) :
    LogAbs hasPath (run w ops) (runLog hasPath g ops) := by
  induction ops generalizing w g with
  | nil => exact h
  | cons op ops ih => exact ih (logAbs_step h op)


/-- C6 counterexample: a snapshot that deserialises to a pair of two
sequences of unequal lengths — here one embedding and zero metadata
records — is accepted by `load` without any error, so "cannot be
deserialized into the expected shape (two equal-length sequences)" is not
what the code checks: the equal-length part of the shape is never
validated. -/
theorem c6_unequal_pair_counterexample :
    loadFile (FileData.pair [[1]] ([] : List String)) = .ok ⟨[[1]], []⟩ ∧
    ([[(1 : ℝ)]] : List Vec).length ≠ ([] : List String).length :=
  ⟨rfl, by decide⟩

/-- C6 (amended): loading surfaces a `StorageCorruption` error exactly when
the file cannot be deserialised to a pair at all (unpicklable bytes, or a
value that is not a pair of two sequences); any pair of two sequences —
equal lengths or not — is accepted silently; and a failed load never
yields a store, empty or otherwise: every successfully loaded store holds
exactly the pair read from the file. -/
theorem c6_load_surfaces_corruption {μ : Type} (f : FileData μ) :
    ((∃ err, loadFile f = .error err) ↔ f = .corrupt ∨ f = .notPair) ∧
    (∀ e m, loadFile f = .ok (⟨e, m⟩ : Store μ) → f = .pair e m) := by
  constructor
  · cases f <;> simp [loadFile] <;> exact ⟨.storageCorruption, trivial⟩
  · intro e m h
    cases f with
    | corrupt => simp [loadFile] at h
    | notPair => simp [loadFile] at h
    | pair e2 m2 =>
      simp only [loadFile, Except.ok.injEq, Store.mk.injEq] at h
      rw [h.1, h.2]

/-- C6 witness: the amended statement applied to a concrete corrupt file
(the error is surfaced) and to a concrete successfully loaded pair. -/
theorem c6_load_surfaces_corruption_witness :
    ((∃ err, loadFile (FileData.corrupt : FileData String) = .error err) ↔
      (FileData.corrupt : FileData String) = .corrupt ∨
        (FileData.corrupt : FileData String) = .notPair) ∧
    (FileData.pair [[1]] ["a"] : FileData String) = .pair [[1]] ["a"] :=
  ⟨(c6_load_surfaces_corruption FileData.corrupt).1,
    (c6_load_surfaces_corruption (FileData.pair [[1]] ["a"])).2 [[1]] ["a"] rfl⟩

/-- The index list produced by `argsort` is a permutation of `0 .. n-1`. -/
theorem argsort_perm (sims : List ℝ) :
    (argsort sims).Perm (List.range sims.length) :=
  List.perm_insertionSort _ _

/-- `argsort` returns one index per stored entry. -/
theorem argsort_length (sims : List ℝ) :
    (argsort sims).length = sims.length := by
  rw [(argsort_perm sims).length_eq, List.length_range]

/-- Every index returned by `argsort` is in range. -/
theorem argsort_mem {sims : List ℝ} {i : ℕ} (h : i ∈ argsort sims) :
    i < sims.length :=
  List.mem_range.mp ((argsort_perm sims).mem_iff.mp h)

/-- The indices produced by `argsort` carry ascending similarity values. -/
theorem argsort_sorted (sims : List ℝ) :
    (argsort sims).Pairwise (fun i j => sims.getD i 0 ≤ sims.getD j 0) := by
  letI : IsTotal ℕ (fun i j => sims.getD i 0 ≤ sims.getD j 0) :=
    ⟨fun a b => le_total _ _⟩
  letI : IsTrans ℕ (fun i j => sims.getD i 0 ≤ sims.getD j 0) :=
    ⟨fun a b c h1 h2 => le_trans h1 h2⟩
  exact List.sorted_insertionSort _ _

/-- Reading a list back off the full index range is the identity. -/
theorem map_getD_range {α : Type} (l : List α) (d : α) :
    (List.range l.length).map (fun i => l.getD i d) = l := by
  apply List.ext_getElem
  · simp
  · intro n h1 h2
    simp only [List.getElem_map, List.getElem_range]
    exact List.getD_eq_getElem l d h2

/-- The ascending value sort is a permutation of the input. -/
theorem sortAsc_perm (l : List ℝ) : (sortAsc l).Perm l :=
  List.perm_insertionSort _ _

/-- The descending value sort is a permutation of the input. -/
theorem sortDesc_perm (l : List ℝ) : (sortDesc l).Perm l :=
  List.perm_insertionSort _ _

/-- The ascending value sort is ascending. -/
theorem sortAsc_sorted (l : List ℝ) :
    List.Sorted (fun a b : ℝ => a ≤ b) (sortAsc l) := by
  letI : IsTotal ℝ (fun a b : ℝ => a ≤ b) := ⟨fun a b => le_total a b⟩
  letI : IsTrans ℝ (fun a b : ℝ => a ≤ b) := ⟨fun a b c h1 h2 => le_trans h1 h2⟩
  exact List.sorted_insertionSort _ _

/-- The descending value sort is descending. -/
theorem sortDesc_sorted (l : List ℝ) :
    List.Sorted (fun a b : ℝ => b ≤ a) (sortDesc l) := by
  letI : IsTotal ℝ (fun a b : ℝ => b ≤ a) := ⟨fun a b => le_total b a⟩
  letI : IsTrans ℝ (fun a b : ℝ => b ≤ a) := ⟨fun a b c h1 h2 => le_trans h2 h1⟩
  exact List.sorted_insertionSort _ _

/-- Reversing the ascending sort gives the descending sort. -/
theorem sortAsc_reverse (l : List ℝ) : (sortAsc l).reverse = sortDesc l := by
  letI : IsAntisymm ℝ (fun a b : ℝ => b ≤ a) :=
    ⟨fun a b h1 h2 => le_antisymm h2 h1⟩
  apply List.eq_of_perm_of_sorted (r := fun a b : ℝ => b ≤ a)
  · exact ((sortAsc l).reverse_perm.trans (sortAsc_perm l)).trans
      (sortDesc_perm l).symm
  · rw [List.Sorted, List.pairwise_reverse]
    exact sortAsc_sorted l
  · exact sortDesc_sorted l

/-- Reading the similarity values off the sorted index list in order gives
exactly the ascending sort of the similarity values. -/
theorem argsort_map_getD (sims : List ℝ) :
    (argsort sims).map (fun i => sims.getD i 0) = sortAsc sims := by
  letI : IsAntisymm ℝ (fun a b : ℝ => a ≤ b) :=
    ⟨fun a b h1 h2 => le_antisymm h1 h2⟩
  apply List.eq_of_perm_of_sorted (r := fun a b : ℝ => a ≤ b)
  · have h1 : ((argsort sims).map (fun i => sims.getD i 0)).Perm
        ((List.range sims.length).map (fun i => sims.getD i 0)) :=
      (argsort_perm sims).map _
    rw [map_getD_range] at h1
    exact h1.trans (sortAsc_perm sims).symm
  · rw [List.Sorted, List.pairwise_map]
    exact argsort_sorted sims
  · exact sortAsc_sorted sims

/-- Each similarity value is the dot product of the corresponding stored
vector with the (already normalised) query. -/
theorem similarities_getD {μ : Type} (s : Store μ) (q : Vec) {i : ℕ}
    (h : i < s.embeddings.length) :
    (similarities s q).getD i 0 = dot (s.embeddings.getD i []) q := by
  have h2 : i < (similarities s q).length := by simp [similarities, h]
  rw [List.getD_eq_getElem _ 0 h2, List.getD_eq_getElem _ [] h]
  simp [similarities]

/-- Unfolding `search` on a nonempty store. -/
theorem search_eq_of_ne_nil {μ : Type} [Inhabited μ] (s : Store μ) (q : Vec)
    (k : Int) (hE : s.embeddings ≠ []) :
    s.search q k =
      ((pySliceFrom (argsort (similarities s (normalize q))) (-k)).reverse).map
        (fun i => (s.metadata.getD i default,
          (similarities s (normalize q)).getD i 0)) := by
  have h : ¬(s.embeddings.isEmpty = true) := by
    simpa [List.isEmpty_iff] using hE
  rw [Store.search, if_neg h]

/-- Master lemma for the selection step: whenever the slice
`argsort(sims)[-top_k:]` is the suffix of the sorted index list that drops
its first `j` entries, `search` returns the `n - j` best entries: the right
count, scores equal to the first `n - j` entries of the descending value
sort, scores descending along the result, and every returned pair being
the metadata and exact cosine score of one stored index. -/
theorem search_drop_spec {μ : Type} [Inhabited μ] (s : Store μ) (q : Vec)
    (k : Int) (j : ℕ) (hE : s.embeddings ≠ [])
    (hj : pySliceFrom (argsort (similarities s (normalize q))) (-k)
        = (argsort (similarities s (normalize q))).drop j)
    (hjn : j ≤ s.embeddings.length) :
    (s.search q k).length = s.embeddings.length - j ∧
    (s.search q k).map Prod.snd
      = (sortDesc (similarities s (normalize q))).take (s.embeddings.length - j) ∧
    List.Pairwise (fun p p2 => p2.2 ≤ p.2) (s.search q k) ∧
    ∀ p ∈ s.search q k, ∃ i, i < s.embeddings.length ∧
      p = (s.metadata.getD i default,
        dot (s.embeddings.getD i []) (normalize q)) := by
  have hslen : (similarities s (normalize q)).length = s.embeddings.length := by
    simp [similarities]
  set sims := similarities s (normalize q) with hsims
  have hidx : (argsort sims).length = sims.length := argsort_length sims
  have hsort : (sortAsc sims).length = sims.length := (sortAsc_perm sims).length_eq
  rw [search_eq_of_ne_nil s q k hE, hj]
  refine ⟨?_, ?_, ?_, ?_⟩
  · simp [hidx, hslen]
  · rw [List.map_map]
    have hcomp :
        (Prod.snd ∘ fun i => (s.metadata.getD i default, sims.getD i 0))
          = fun i => sims.getD i 0 := rfl
    rw [hcomp, List.map_reverse, List.map_drop, argsort_map_getD]
    have htake : (sortAsc sims).reverse.take (sims.length - j)
        = ((sortAsc sims).drop ((sortAsc sims).length - (sims.length - j))).reverse :=
      List.take_reverse
    rw [hsort] at htake
    have harith : sims.length - (sims.length - j) = j := by omega
    rw [harith] at htake
    rw [← htake, sortAsc_reverse, hslen]
  · rw [List.pairwise_map, List.pairwise_reverse]
    exact ((argsort_sorted sims).sublist (List.drop_sublist j (argsort sims)))
  · intro p hp
    obtain ⟨i, hi, hfi⟩ := List.mem_map.mp hp
    have himem : i ∈ argsort sims :=
      List.drop_subset j (argsort sims) (List.mem_reverse.mp hi)
    have hilt : i < s.embeddings.length := by
      have := argsort_mem himem
      omega
    refine ⟨i, hilt, ?_⟩
    rw [← hfi, similarities_getD s (normalize q) hilt]

/-- For a positive `top_k`, the slice `l[-top_k:]` keeps the last
`min top_k (length l)` elements: it drops the first `length - top_k`. -/
theorem pySliceFrom_neg_pos {α : Type} (l : List α) (k : Int) (hk : 0 < k) :
    pySliceFrom l (-k) = l.drop (l.length - k.toNat) := by
  rw [pySliceFrom, if_pos (by omega)]
  congr 1
  omega

/-- For `top_k = 0`, the slice `l[-0:]` is `l[0:]`: the whole list. -/
theorem pySliceFrom_neg_zero {α : Type} (l : List α) :
    pySliceFrom l (-(0 : Int)) = l := by
  rw [pySliceFrom, if_neg (by omega)]
  rfl

/-- C7: search on a store with zero entries returns the empty list for
every query and every `top_k` — gracefully, with no error (the model is a
total function) — and, for `top_k ≥ 1`, an empty store is the only way
`search` produces an empty result: on a nonempty store at least one pair
comes back. -/
theorem c7_empty_store_search {μ : Type} [Inhabited μ] (s : Store μ)
    (q q2 : Vec) (k k2 : Int) (hk : 1 ≤ k) :
    (Store.empty : Store μ).search q2 k2 = [] ∧
    (s.search q k = [] ↔ s.embeddings = []) := by
  refine ⟨by simp [Store.search, Store.empty], ?_⟩
  constructor
  · intro h
    by_contra hE
    have hslen : (similarities s (normalize q)).length = s.embeddings.length := by
      simp [similarities]
    have hn : 0 < s.embeddings.length := List.length_pos.mpr hE
    have hj : pySliceFrom (argsort (similarities s (normalize q))) (-k)
        = (argsort (similarities s (normalize q))).drop
          (s.embeddings.length - k.toNat) := by
      rw [pySliceFrom_neg_pos _ k (by omega), argsort_length, hslen]
    have hspec := search_drop_spec s q k (s.embeddings.length - k.toNat) hE hj
      (by omega)
    have hlen := hspec.1
    rw [h] at hlen
    simp only [List.length_nil] at hlen
    omega
  · intro h
    rw [Store.search, if_pos (by simp [h])]

/-- C7 witness: the empty store returns `[]` even for a negative `top_k`,
and on the three-entry example store with `top_k = 1` the only-empty-case
equivalence is instantiated. -/
theorem c7_empty_store_search_witness :
    (1 : Int) ≤ 1 ∧
    (Store.empty : Store String).search [2] (-7) = [] ∧
    ((exampleStore.search [1, 0, 0] 1 = []) ↔ exampleStore.embeddings = []) := by
  have h := c7_empty_store_search (μ := String) exampleStore [1, 0, 0] [2] 1 (-7)
    (le_refl 1)
  exact ⟨le_refl 1, h.1, h.2⟩

/-- C8: `top_k` clamping — when `top_k` strictly exceeds the number of
stored entries, `search` returns exactly all `n` stored entries (the
returned metadata is a permutation of the stored metadata list), with no
error. -/
theorem c8_top_k_clamping {μ : Type} [Inhabited μ] (s : Store μ) (q : Vec)
    (k : Int) (hE : s.embeddings ≠ [])
    (hM : s.metadata.length = s.embeddings.length)
    (hk : (s.embeddings.length : Int) < k) :
    (s.search q k).length = s.embeddings.length ∧
    ((s.search q k).map Prod.fst).Perm s.metadata := by
  have hslen : (similarities s (normalize q)).length = s.embeddings.length := by
    simp [similarities]
  have hn : 0 < s.embeddings.length := List.length_pos.mpr hE
  have hj : pySliceFrom (argsort (similarities s (normalize q))) (-k)
      = (argsort (similarities s (normalize q))).drop 0 := by
    rw [pySliceFrom_neg_pos _ k (by omega), argsort_length, hslen]
    congr 1
    omega
  have hspec := search_drop_spec s q k 0 hE hj (by omega)
  refine ⟨by simpa using hspec.1, ?_⟩
  rw [search_eq_of_ne_nil s q k hE, hj, List.drop_zero, List.map_map]
  have hcomp : (Prod.fst ∘ fun i => (s.metadata.getD i default,
      (similarities s (normalize q)).getD i 0))
      = fun i => s.metadata.getD i default := rfl
  rw [hcomp]
  have h1 : (((argsort (similarities s (normalize q))).reverse.map
      (fun i => s.metadata.getD i default))).Perm
      ((List.range (similarities s (normalize q)).length).map
        (fun i => s.metadata.getD i default)) :=
    ((argsort (similarities s (normalize q))).reverse_perm.trans
      (argsort_perm (similarities s (normalize q)))).map _
  rw [hslen, ← hM, map_getD_range] at h1
  exact h1

/-- C8 witness: a one-entry store queried with `top_k = 100` returns
exactly one result. -/
theorem c8_top_k_clamping_witness :
    ((Store.empty : Store String).add [1] "a").embeddings ≠ [] ∧
    ((((Store.empty : Store String).add [1] "a").embeddings.length : Int)) < 100 ∧
    ((((Store.empty : Store String).add [1] "a").search [1] 100).length
      = ((Store.empty : Store String).add [1] "a").embeddings.length) := by
  have hE : ((Store.empty : Store String).add [1] "a").embeddings ≠ [] := by
    simp [Store.add, Store.empty]
  have hM : ((Store.empty : Store String).add [1] "a").metadata.length
      = ((Store.empty : Store String).add [1] "a").embeddings.length := by
    simp [Store.add, Store.empty]
  have hk : ((((Store.empty : Store String).add [1] "a").embeddings.length : Int))
      < 100 := by
    simp [Store.add, Store.empty]
  exact ⟨hE, hk, (c8_top_k_clamping _ [1] 100 hE hM hk).1⟩

/-- C10: implicit edge case — `search` with `top_k = 0` on a nonempty
store does not return the empty list: the slice `[-0:]` selects the whole
sorted index list, so all `n` entries come back (their metadata a
permutation of the stored metadata), ordered by score descending. -/
theorem c10_top_k_zero {μ : Type} [Inhabited μ] (s : Store μ) (q : Vec)
    (hE : s.embeddings ≠ [])
    (hM : s.metadata.length = s.embeddings.length) :
    (s.search q 0).length = s.embeddings.length ∧
    s.search q 0 ≠ [] ∧
    ((s.search q 0).map Prod.fst).Perm s.metadata ∧
    List.Pairwise (fun p p2 => p2.2 ≤ p.2) (s.search q 0) := by
  have hslen : (similarities s (normalize q)).length = s.embeddings.length := by
    simp [similarities]
  have hn : 0 < s.embeddings.length := List.length_pos.mpr hE
  have hj : pySliceFrom (argsort (similarities s (normalize q))) (-(0 : Int))
      = (argsort (similarities s (normalize q))).drop 0 := by
    rw [pySliceFrom_neg_zero, List.drop_zero]
  have hspec := search_drop_spec s q 0 0 hE hj (by omega)
  have hlen : (s.search q 0).length = s.embeddings.length := by
    simpa using hspec.1
  refine ⟨hlen, ?_, ?_, hspec.2.2.1⟩
  · intro hnil
    rw [hnil] at hlen
    simp only [List.length_nil] at hlen
    omega
  · rw [search_eq_of_ne_nil s q 0 hE, hj, List.drop_zero, List.map_map]
    have hcomp : (Prod.fst ∘ fun i => (s.metadata.getD i default,
        (similarities s (normalize q)).getD i 0))
        = fun i => s.metadata.getD i default := rfl
    rw [hcomp]
    have h1 : (((argsort (similarities s (normalize q))).reverse.map
        (fun i => s.metadata.getD i default))).Perm
        ((List.range (similarities s (normalize q)).length).map
          (fun i => s.metadata.getD i default)) :=
      ((argsort (similarities s (normalize q))).reverse_perm.trans
        (argsort_perm (similarities s (normalize q)))).map _
    rw [hslen, ← hM, map_getD_range] at h1
    exact h1

/-- C10 witness: the three-entry example store queried with `top_k = 0`
returns all three entries, not the empty list. -/
theorem c10_top_k_zero_witness :
    exampleStore.embeddings ≠ [] ∧
    (exampleStore.search [1, 0, 0] 0).length = exampleStore.embeddings.length ∧
    exampleStore.search [1, 0, 0] 0 ≠ [] := by
  have hE : exampleStore.embeddings ≠ [] := by
    simp [exampleStore, Store.add, Store.empty]
  have hM : exampleStore.metadata.length = exampleStore.embeddings.length := by
    simp [exampleStore, Store.add, Store.empty]
  have h := c10_top_k_zero exampleStore [1, 0, 0] hE hM
  exact ⟨hE, h.1, h.2.1⟩

/-- Evaluation of `argsort` on a three-element similarity list with
`b ≤ c < a`: ascending value order is the index list `[1, 2, 0]`. -/
theorem argsort_three {a b c : ℝ} (h1 : b ≤ c) (h2 : c < a) :
    argsort [a, b, c] = [1, 2, 0] := by
  have hba : ¬(a ≤ b) := not_le.mpr (lt_of_le_of_lt h1 h2)
  have hca : ¬(a ≤ c) := not_le.mpr h2
  rw [argsort]
  have hrange : List.range ([a, b, c] : List ℝ).length = [0, 1, 2] := rfl
  rw [hrange]
  simp [List.insertionSort, List.orderedInsert, h1, hba, hca]

/-- Evaluation of the ranking example of the spec: querying the example store
with `[1,0,0]` and `top_k = 2` returns `A` (score 1) first, then `C`
(score `0.9/sqrt 0.82`), and `B` is not in the result. -/
theorem exampleStore_search_eval :
    exampleStore.search [1, 0, 0] 2 = [("A", 1), ("C", 0.9 / Real.sqrt 0.82)] := by
  have hsqrt_pos : (0 : ℝ) < Real.sqrt 0.82 := Real.sqrt_pos.mpr (by norm_num)
  have hc_pos : (0 : ℝ) ≤ 0.9 / Real.sqrt 0.82 := by positivity
  have hc_lt_one : 0.9 / Real.sqrt 0.82 < 1 := by
    rw [div_lt_one hsqrt_pos]
    rw [show (0.9 : ℝ) = 0.9 from rfl]
    exact (Real.lt_sqrt (by norm_num)).mpr (by norm_num)
  have hA : normalize [1, 0, 0] = [1, 0, 0] := by
    norm_num [normalize, norm2, normSq, Real.sqrt_one]
  have hB : normalize [0, 1, 0] = [0, 1, 0] := by
    norm_num [normalize, norm2, normSq, Real.sqrt_one]
  have hC : normalize [0.9, 0.1, 0]
      = [0.9 / Real.sqrt 0.82, 0.1 / Real.sqrt 0.82, 0] := by
    norm_num [normalize, norm2, normSq]
  have hE : exampleStore.embeddings ≠ [] := by
    simp [exampleStore, Store.add, Store.empty]
  have hemb : exampleStore.embeddings
      = [[1, 0, 0], [0, 1, 0], [0.9 / Real.sqrt 0.82, 0.1 / Real.sqrt 0.82, 0]] := by
    simp [exampleStore, Store.add, Store.empty, hA, hB, hC]
  have hmeta : exampleStore.metadata = ["A", "B", "C"] := by
    simp [exampleStore, Store.add, Store.empty]
  have hsims : similarities exampleStore (normalize [1, 0, 0])
      = [1, 0, 0.9 / Real.sqrt 0.82] := by
    rw [hA, similarities, hemb]
    norm_num [dot]
  rw [search_eq_of_ne_nil exampleStore [1, 0, 0] 2 hE, hsims,
    argsort_three hc_pos hc_lt_one, hmeta]
  norm_num [pySliceFrom]

/-- C2: on a nonempty store with parallel sequences, for a nonzero query
and `1 ≤ top_k ≤ n`, `search` returns exactly `top_k` pairs; the returned
score list is the `take top_k` prefix of the descending sort of all
cosine similarities (so the scores are the `top_k` largest, descending);
the result is ordered by score descending; and every returned pair is the
metadata and the exact dot product of the stored normalised vector with
the normalised query at one common index.  In particular, on the example
store of the spec, querying `[1,0,0]` with `top_k = 2` returns `A` first then
`C`, and never `B`. -/
theorem c2_search_ranking :
    (∀ (μ : Type) [Inhabited μ], ∀ (s : Store μ) (q : Vec) (k : ℕ),
      s.embeddings ≠ [] → s.metadata.length = s.embeddings.length →
      normSq q ≠ 0 → 1 ≤ k → k ≤ s.embeddings.length →
      (s.search q (k : Int)).length = k ∧
      (s.search q (k : Int)).map Prod.snd
        = (sortDesc (similarities s (normalize q))).take k ∧
      List.Pairwise (fun p p2 => p2.2 ≤ p.2) (s.search q (k : Int)) ∧
      (∀ p ∈ s.search q (k : Int), ∃ i, i < s.embeddings.length ∧
        p = (s.metadata.getD i default,
          dot (s.embeddings.getD i []) (normalize q)))) ∧
    exampleStore.search [1, 0, 0] 2 = [("A", 1), ("C", 0.9 / Real.sqrt 0.82)] := by
  refine ⟨?_, exampleStore_search_eval⟩
  intro μ inst s q k hE hM hq hk1 hkn
  have hslen : (similarities s (normalize q)).length = s.embeddings.length := by
    simp [similarities]
  have hj : pySliceFrom (argsort (similarities s (normalize q))) (-(k : Int))
      = (argsort (similarities s (normalize q))).drop (s.embeddings.length - k) := by
    rw [pySliceFrom_neg_pos _ _ (by omega : (0 : Int) < (k : Int)),
      argsort_length, hslen]
    congr 1
  have hspec := search_drop_spec s q (k : Int) (s.embeddings.length - k) hE hj
    (by omega)
  have harith : s.embeddings.length - (s.embeddings.length - k) = k := by omega
  rw [harith] at hspec
  exact hspec

/-- C2 witness: the general statement instantiated at the example store
with the nonzero query `[1,0,0]` and `top_k = 2`. -/
theorem c2_search_ranking_witness :
    exampleStore.embeddings ≠ [] ∧
    normSq [1, 0, 0] ≠ 0 ∧
    (exampleStore.search [1, 0, 0] ((2 : ℕ) : Int)).length = 2 := by
  have hE : exampleStore.embeddings ≠ [] := by
    simp [exampleStore, Store.add, Store.empty]
  have hM : exampleStore.metadata.length = exampleStore.embeddings.length := by
    simp [exampleStore, Store.add, Store.empty]
  have hq : normSq [1, 0, 0] ≠ 0 := by norm_num [normSq]
  have hkn : 2 ≤ exampleStore.embeddings.length := by
    simp [exampleStore, Store.add, Store.empty]
  have h := c2_search_ranking.1 String exampleStore [1, 0, 0] 2 hE hM hq
    (by omega) hkn
  exact ⟨hE, hq, h.1⟩

/-- A sum of squares is nonnegative. -/
theorem normSq_nonneg (v : Vec) : 0 ≤ normSq v := by
  induction v with
  | nil => simp [normSq]
  | cons x v ih =>
    simp only [normSq, List.map_cons, List.sum_cons] at ih ⊢
    exact add_nonneg (mul_self_nonneg x) ih

/-- Dividing every component by `c` divides the sum of squares by `c²`
(also true for `c = 0` under the division-by-zero convention of Lean). -/
theorem normSq_map_div (v : Vec) (c : ℝ) :
    normSq (v.map (fun x => x / c)) = normSq v / (c * c) := by
  induction v with
  | nil => simp [normSq]
  | cons x v ih =>
    simp only [normSq, List.map_cons, List.sum_cons] at ih ⊢
    rw [ih, div_mul_div_comm, div_add_div_same]

/-- Normalising a vector of nonzero norm yields a vector of L2 norm 1. -/
theorem norm2_normalize {v : Vec} (h : normSq v ≠ 0) :
    norm2 (normalize v) = 1 := by
  have h0 : 0 ≤ normSq v := normSq_nonneg v
  rw [norm2, normalize, normSq_map_div, norm2, Real.mul_self_sqrt h0,
    div_self h, Real.sqrt_one]

/-- The embeddings after repeated `add` are the normalised input vectors,
in insertion order. -/
theorem addAll_embeddings {μ : Type} (s : Store μ) (l : List (Vec × μ)) :
    (s.addAll l).embeddings = s.embeddings ++ l.map (fun p => normalize p.1) := by
  induction l generalizing s with
  | nil => simp [Store.addAll]
  | cons p l ih =>
    rw [Store.addAll, List.foldl_cons]
    have hrec : List.foldl (fun t p2 => t.add p2.1 p2.2) (s.add p.1 p.2) l
        = (s.add p.1 p.2).addAll l := rfl
    rw [hrec, ih]
    simp [Store.add]

/-- C5: unit-norm invariant.  In every store built by repeated `add` of
vectors of nonzero norm starting from the empty store, the stored
embedding sequence is exactly the sequence of input vectors each divided
by its L2 norm, and every stored embedding has L2 norm equal to 1. -/
theorem c5_unit_norm {μ : Type} (l : List (Vec × μ))
    (h : ∀ p ∈ l, normSq p.1 ≠ 0) :
    (Store.empty.addAll l).embeddings = l.map (fun p => normalize p.1) ∧
    ∀ e ∈ (Store.empty.addAll l).embeddings, norm2 e = 1 := by
  have hemb : (Store.empty.addAll l).embeddings
      = l.map (fun p => normalize p.1) := by
    rw [addAll_embeddings]
    rfl
  refine ⟨hemb, ?_⟩
  intro e he
  rw [hemb] at he
  obtain ⟨p, hp, hpe⟩ := List.mem_map.mp he
  rw [← hpe]
  exact norm2_normalize (h p hp)

/-- C5 witness: adding the single vector `[3,4]` (norm 5, nonzero) yields
a store whose one embedding has L2 norm 1. -/
theorem c5_unit_norm_witness :
    (∀ p ∈ [(([3, 4] : Vec), "m")], normSq p.1 ≠ 0) ∧
    ∀ e ∈ ((Store.empty : Store String).addAll [([3, 4], "m")]).embeddings,
      norm2 e = 1 := by
  have h : ∀ p ∈ [(([3, 4] : Vec), "m")], normSq p.1 ≠ 0 := by
    intro p hp
    rw [List.mem_singleton] at hp
    rw [hp]
    norm_num [normSq]
  exact ⟨h, (c5_unit_norm _ h).2⟩

/-- The metadata after repeated `add` is the metadata of the inserted
pairs, in insertion order. -/
theorem addAll_metadata {μ : Type} (s : Store μ) (l : List (Vec × μ)) :
    (s.addAll l).metadata = s.metadata ++ l.map (fun p => p.2) := by
  induction l generalizing s with
  | nil => simp [Store.addAll]
  | cons p l ih =>
    rw [Store.addAll, List.foldl_cons]
    have hrec : List.foldl (fun t p2 => t.add p2.1 p2.2) (s.add p.1 p.2) l
        = (s.add p.1 p.2).addAll l := rfl
    rw [hrec, ih]
    simp [Store.add]

/-- A store is the lockstep fold of a pair list exactly when its two
sequences are the two componentwise readings of that list. -/
theorem addAll_empty_eq {μ : Type} (l : List (Vec × μ)) :
    (Store.empty : Store μ).addAll l
      = ⟨l.map (fun p => normalize p.1), l.map (fun p => p.2)⟩ := by
  have h1 := addAll_embeddings (Store.empty : Store μ) l
  have h2 := addAll_metadata (Store.empty : Store μ) l
  rw [show (Store.empty : Store μ).embeddings = [] from rfl,
    List.nil_append] at h1
  rw [show (Store.empty : Store μ).metadata = [] from rfl,
    List.nil_append] at h2
  calc (Store.empty : Store μ).addAll l
      = ⟨((Store.empty : Store μ).addAll l).embeddings,
          ((Store.empty : Store μ).addAll l).metadata⟩ := rfl
    _ = ⟨l.map (fun p => normalize p.1), l.map (fun p => p.2)⟩ := by
        rw [h1, h2]

/-- C4: parallel-sequence invariant with positional correspondence.  Every
world reachable from an empty store by any sequence of `add` / `save` /
`load` / `clear` (with or without a configured persistence location) is
the rendering of the canonical entry log of that operation sequence: the
store equals the lockstep `addAll` fold of the log, so `embeddings[i]` is
the normalisation of the vector inserted at position `i` and
`metadata[i]` is the metadata inserted together with it — the same
position of the same log entry — and likewise for the two sequences in
the snapshot file; in particular both pairs of sequences have equal
length. -/
theorem c4_parallel_invariant {μ : Type} (hasPath : Bool) (ops : List (Op μ)) :
    (run (World.init μ hasPath) ops).store
      = Store.empty.addAll (runLog hasPath ⟨[], none⟩ ops).entries ∧
    (run (World.init μ hasPath) ops).store.embeddings
      = (runLog hasPath ⟨[], none⟩ ops).entries.map (fun p => normalize p.1) ∧
    (run (World.init μ hasPath) ops).store.metadata
      = (runLog hasPath ⟨[], none⟩ ops).entries.map (fun p => p.2) ∧
    (run (World.init μ hasPath) ops).file = Option.map
      (fun l => (l.map (fun p => normalize p.1), l.map (fun p => p.2)))
      (runLog hasPath ⟨[], none⟩ ops).fileEntries ∧
    (run (World.init μ hasPath) ops).store.embeddings.length
      = (run (World.init μ hasPath) ops).store.metadata.length ∧
    ∀ e m, (run (World.init μ hasPath) ops).file = some (e, m) →
      e.length = m.length := by
  have h : LogAbs hasPath (World.init μ hasPath) (⟨[], none⟩ : EntryLog μ) :=
    ⟨rfl, rfl, rfl, rfl⟩
  obtain ⟨hp, he, hm, hf⟩ := logAbs_run h ops
  refine ⟨?_, he, hm, hf, ?_, ?_⟩
  · rw [addAll_empty_eq, ← he, ← hm]
  · rw [he, hm]
    simp
  · intro e m hfile
    rw [hf] at hfile
    cases hfe : (runLog hasPath (⟨[], none⟩ : EntryLog μ) ops).fileEntries with
    | none =>
      rw [hfe] at hfile
      exact absurd hfile (by simp)
    | some l =>
      rw [hfe] at hfile
      simp only [Option.map_some', Option.some.injEq, Prod.mk.injEq] at hfile
      rw [← hfile.1, ← hfile.2]
      simp

/-- C4 witness: one `add` with a configured path leaves a snapshot file
whose two sequences (instantiating the file conjunct at its concrete
contents) have equal length. -/
theorem c4_parallel_invariant_witness :
    (run (World.init String true) [.add [1] "a"]).file
      = some ([normalize [1]], ["a"]) ∧
    ([normalize [1]] : List Vec).length = (["a"] : List String).length := by
  have hfile : (run (World.init String true) [.add [1] "a"]).file
      = some ([normalize [1]], ["a"]) := rfl
  exact ⟨hfile, (c4_parallel_invariant true [.add [1] "a"]).2.2.2.2.2
    [normalize [1]] ["a"] hfile⟩

/-- Membership in the Python batch range `range(0, n, 32)`. -/
theorem mem_pyRange_iff {n i : ℕ} :
    i ∈ pyRange n 32 ↔ ∃ t, t < (n + 31) / 32 ∧ i = 32 * t := by
  rw [pyRange, List.mem_range']
  constructor
  · rintro ⟨t, ht, rfl⟩
    exact ⟨t, ht, by omega⟩
  · rintro ⟨t, ht, rfl⟩
    exact ⟨t, ht, by omega⟩

/-- Every batch start offset is in range when the list is nonempty. -/
theorem pyRange_lt {n i : ℕ} (h : i ∈ pyRange n 32) : i < n := by
  obtain ⟨t, ht, rfl⟩ := mem_pyRange_iff.mp h
  have h2 : (n + 31) / 32 * 32 ≤ n + 31 := Nat.div_mul_le_self (n + 31) 32
  omega

/-- The start offset of the batch containing index `j` is itself a batch
start offset. -/
theorem pyRange_start_mem {n j : ℕ} (hj : j < n) :
    32 * (j / 32) ∈ pyRange n 32 := by
  rw [mem_pyRange_iff]
  refine ⟨j / 32, ?_, rfl⟩
  have h1 := Nat.div_add_mod (n + 31) 32
  have h2 : (n + 31) % 32 < 32 := Nat.mod_lt _ (by norm_num)
  rw [Nat.div_lt_iff_lt_mul (by norm_num : 0 < 32)]
  omega

/-- The batches `texts[i : i+32]` for `i in range(0, len, 32)` cover the
list exactly: some batch trips the blank check iff some element of the
list is blank (no batch of a nonempty list is empty). -/
theorem batch_any_blank (texts : List PyStr) (hne : texts ≠ []) :
    ((pyRange texts.length 32).any
      (fun i => embedInputInvalid (.list ((texts.drop i).take 32))) = true) ↔
    ∃ t ∈ texts, isBlank t = true := by
  have hn : 0 < texts.length := List.length_pos.mpr hne
  rw [List.any_eq_true]
  constructor
  · rintro ⟨i, hi, hinv⟩
    have hilt : i < texts.length := pyRange_lt hi
    rw [embedInputInvalid, Bool.or_eq_true] at hinv
    rcases hinv with hemp | hany
    · rw [List.isEmpty_iff] at hemp
      have hlen : ((texts.drop i).take 32).length
          = min 32 (texts.length - i) := by
        simp [List.length_take, List.length_drop]
      rw [hemp] at hlen
      simp only [List.length_nil] at hlen
      omega
    · obtain ⟨t, ht, hb⟩ := List.any_eq_true.mp hany
      exact ⟨t, List.drop_subset i texts (List.take_subset 32 _ ht), hb⟩
  · rintro ⟨t, ht, hb⟩
    obtain ⟨j, hjlt, hjt⟩ := List.mem_iff_getElem.mp ht
    refine ⟨32 * (j / 32), pyRange_start_mem hjlt, ?_⟩
    rw [embedInputInvalid, Bool.or_eq_true]
    right
    rw [List.any_eq_true]
    refine ⟨t, ?_, hb⟩
    have hstart : 32 * (j / 32) ≤ j := by
      have := Nat.div_mul_le_self j 32
      omega
    have hmod := Nat.div_add_mod j 32
    have hmodlt : j % 32 < 32 := Nat.mod_lt _ (by norm_num)
    rw [List.mem_iff_getElem]
    have hdlen : ((texts.drop (32 * (j / 32))).take 32).length
        = min 32 (texts.length - 32 * (j / 32)) := by
      simp [List.length_take, List.length_drop]
    refine ⟨j - 32 * (j / 32), by omega, ?_⟩
    rw [List.getElem_take, List.getElem_drop]
    have hidx : 32 * (j / 32) + (j - 32 * (j / 32)) = j := by omega
    simp only [hidx]
    exact hjt

/-- C9 counterexample: the single whitespace-only string `"   "` is
rejected by `get_embedding` with the EmptyInput error, but it is neither
an empty string nor a sequence, so it lies outside the enumerated failure
set of the claim — the "only if" direction of the claimed equivalence fails. -/
theorem c9_blank_string_counterexample :
    embedInputInvalid (.str [' ', ' ', ' ']) = true ∧
    ¬ claimedEmptyInput (.str [' ', ' ', ' ']) := by
  constructor
  · decide
  · intro h
    simp only [claimedEmptyInput] at h
    exact absurd h (by decide)

/-- C9 (amended): the embedding operations fail with EmptyInput iff given
a blank (empty or whitespace-only) single string, an empty sequence, or a
sequence containing a blank string; and the batch path fails on an empty
items sequence — it is not a successful no-op — and on a nonempty items
sequence it fails exactly when some item is blank. -/
theorem c9_empty_input_amended :
    (∀ inp : EmbedInput, embedInputInvalid inp = true ↔ amendedEmptyInput inp) ∧
    batchEmbedInvalid [] 32 = true ∧
    (∀ texts : List PyStr,
      batchEmbedInvalid texts 32 = true ↔
        (texts = [] ∨ ∃ t ∈ texts, isBlank t = true)) := by
  refine ⟨?_, rfl, ?_⟩
  · intro inp
    cases inp with
    | str s => simp [embedInputInvalid, amendedEmptyInput]
    | list l =>
      simp [embedInputInvalid, amendedEmptyInput, List.isEmpty_iff,
        List.any_eq_true]
  · intro texts
    by_cases hne : texts = []
    · subst hne
      simp [batchEmbedInvalid]
    · rw [batchEmbedInvalid, Bool.or_eq_true, batch_any_blank texts hne]
      simp [List.isEmpty_iff, hne]

end CodeRag
